import Mathlib

/-!
A shallow embedding of the core of `src/automata_simulator.c`: the FSM data
model (states, transitions, derived alphabet), the builder operations
(`addState`, `addToAlphabet`, `addTransition`), transition lookup
(`findTransition`), the cursor reset (`resetFSM`) and the execution engine
(`processString`), together with theorems about them.

Embedding conventions: each C fixed-capacity array paired with its count
(`states`/`stateCount`, `transitions`/`transitionCount`,
`alphabet`/`alphabetSize`, `trace`/`traceCount`) becomes a Lean list whose
length is the count; the configured maxima stay as explicit capacity checks
exactly where the C code performs them.  C state indices are embedded as
`Nat` (every index the program itself produces is a nonnegative array
position); `addState` keeps the C convention of returning `-1 : Int` on
failure.  `sprintf` message formatting becomes string concatenation
producing the same text.  Out-of-bounds array reads, which C leaves
undefined, are embedded with `List.getD` returning a default element; a
separate checked engine (`processStringChecked`) guards every array access
and trace append and returns `none` if any access would be out of bounds.
-/

namespace AutomataSim

/-- `#define MAX_STATES 100` from the source. -/
def MAX_STATES : Nat := 100

/-- `#define MAX_TRANSITIONS 500` from the source. -/
def MAX_TRANSITIONS : Nat := 500

/-- `#define MAX_ALPHABET 26` from the source. -/
def MAX_ALPHABET : Nat := 26

/-- `#define MAX_TRACE 100` from the source. -/
def MAX_TRACE : Nat := 100

/-- `#define MAX_NAME_LEN 50` from the source. -/
def MAX_NAME_LEN : Nat := 50

/-- The C `State` struct: a display name and an accepting flag. -/
structure State where
  name : String
  isAccepting : Bool
  deriving DecidableEq

/-- The C `Transition` struct: `(fromState, toState, symbol)`. -/
structure Transition where
  fromState : Nat
  toState : Nat
  symbol : Char
  deriving DecidableEq

/-- The C `FSM` struct.  `stateCount`, `transitionCount` and `alphabetSize`
are the lengths of the corresponding lists. -/
structure FSM where
  states : List State
  transitions : List Transition
  initialState : Nat
  currentState : Nat
  alphabet : List Char
  deriving DecidableEq

/-- The C `ProcessResult`: acceptance flag plus the ordered trace records
(`traceCount` is the length of `trace`). -/
structure ProcessResult where
  accepted : Bool
  trace : List String
  deriving DecidableEq

/-- `initializeFSM`: all counts zero, initial and current state 0. -/
def initializeFSM : FSM :=
  { states := [], transitions := [], initialState := 0, currentState := 0,
    alphabet := [] }

/-- The default `State` used for an (undefined in C) out-of-bounds read. -/
def defaultState : State := { name := "", isAccepting := false }

/-- The default `Transition` used for an out-of-bounds read. -/
def defaultTransition : Transition := { fromState := 0, toState := 0, symbol := 'a' }

/-- `fsm->states[i].name` (C leaves an out-of-bounds read undefined; the
embedding returns the default). -/
def stateName (fsm : FSM) (i : Nat) : String :=
  (fsm.states.getD i defaultState).name

/-- `fsm->states[i].isAccepting`. -/
def stateAccepting (fsm : FSM) (i : Nat) : Bool :=
  (fsm.states.getD i defaultState).isAccepting

/-- `fsm->transitions[i]`. -/
def transitionAt (fsm : FSM) (i : Nat) : Transition :=
  fsm.transitions.getD i defaultTransition

/-- `addState`: on capacity overflow prints an error and returns `-1`
without mutating; otherwise stores the name truncated by
`strncpy(..., MAX_NAME_LEN - 1)` plus forced NUL terminator (so the stored
C string is the first `MAX_NAME_LEN - 1` characters), stores the flag, and
returns the old `stateCount` (post-incrementing it). -/
def addState (fsm : FSM) (name : String) (isAccepting : Bool) : Int × FSM :=
  if fsm.states.length ≥ MAX_STATES then
    (-1, fsm)
  else
    ((fsm.states.length : Int),
     { fsm with
        states := fsm.states ++
          [{ name := String.mk (name.data.take (MAX_NAME_LEN - 1)),
             isAccepting := isAccepting }] })

/-- `charInAlphabet`: linear scan of `alphabet[0..alphabetSize)` for `c`. -/
def charInAlphabet (fsm : FSM) (c : Char) : Bool :=
  fsm.alphabet.contains c

/-- `addToAlphabet`: appends `c` iff it is absent and `alphabetSize` is
below `MAX_ALPHABET`; otherwise silently does nothing. -/
def addToAlphabet (fsm : FSM) (c : Char) : FSM :=
  if charInAlphabet fsm c = false ∧ fsm.alphabet.length < MAX_ALPHABET then
    { fsm with alphabet := fsm.alphabet ++ [c] }
  else
    fsm

/-- `addTransition`: on capacity overflow prints an error and returns with
no mutation; otherwise appends the transition and then registers the symbol
via `addToAlphabet`. -/
def addTransition (fsm : FSM) (fromState toState : Nat) (symbol : Char) : FSM :=
  if fsm.transitions.length ≥ MAX_TRANSITIONS then
    fsm
  else
    addToAlphabet
      { fsm with
          transitions := fsm.transitions ++
            [{ fromState := fromState, toState := toState, symbol := symbol }] }
      symbol

/-- The scanning loop of `findTransition`, carrying the loop counter `i`:
returns the index of the first transition matching `(currentState, symbol)`,
`none` (C: `-1`) if the scan falls off the end. -/
def findTransitionAux : List Transition → Nat → Nat → Char → Option Nat
  | [], _, _, _ => none
  | t :: rest, i, currentState, symbol =>
    if t.fromState = currentState ∧ t.symbol = symbol then some i
    else findTransitionAux rest (i + 1) currentState symbol

/-- `findTransition`: first-match scan over the transitions in registration
order; `none` embeds the C return value `-1`. -/
def findTransition (fsm : FSM) (currentState : Nat) (symbol : Char) : Option Nat :=
  findTransitionAux fsm.transitions 0 currentState symbol

/-- `resetFSM`: `fsm->currentState = fsm->initialState`. -/
def resetFSM (fsm : FSM) : FSM :=
  { fsm with currentState := fsm.initialState }

/-- `sprintf("Starting at state: %s", name)`. -/
def startMsg (name : String) : String :=
  "Starting at state: " ++ name

/-- `sprintf("Error: '%c' not in alphabet", symbol)`. -/
def unknownSymbolMsg (symbol : Char) : String :=
  "Error: '" ++ String.singleton symbol ++ "' not in alphabet"

/-- `sprintf("Read '%c': %s -> %s", symbol, oldName, newName)`. -/
def readMsg (symbol : Char) (oldName newName : String) : String :=
  "Read '" ++ String.singleton symbol ++ "': " ++ oldName ++ " -> " ++ newName

/-- `sprintf("No transition for '%c' from %s", symbol, name)`. -/
def noTransitionMsg (symbol : Char) (name : String) : String :=
  "No transition for '" ++ String.singleton symbol ++ "' from " ++ name

/-- The accepting verdict record. -/
def acceptedMsg : String := "✓ String ACCEPTED"

/-- The rejecting verdict record. -/
def rejectedMsg : String := "✗ String REJECTED"

/-- The character loop of `processString` (`for (i = 0; i < strlen(input); i++)`),
given the remaining characters.  Returns the final `accepted` flag, the trace
records the loop and the verdict emit (in emission order, the C code appends
them to `result.trace`), and the FSM as left behind (only its cursor moved).
On an unknown symbol or a missing transition it stops immediately with
`accepted = 0` (the initialization value), as the C `return result` does. -/
def scanChars : FSM → List Char → Bool × List String × FSM
  | fsm, [] =>
    let accepted := stateAccepting fsm fsm.currentState
    (accepted, [if accepted then acceptedMsg else rejectedMsg], fsm)
  | fsm, symbol :: rest =>
    if charInAlphabet fsm symbol = false then
      (false, [unknownSymbolMsg symbol], fsm)
    else
      match findTransition fsm fsm.currentState symbol with
      | some transIndex =>
        let oldState := fsm.currentState
        let fsm1 := { fsm with currentState := (transitionAt fsm transIndex).toState }
        let r := scanChars fsm1 rest
        (r.1, readMsg symbol (stateName fsm oldState) (stateName fsm1 fsm1.currentState) :: r.2.1,
         r.2.2)
      | none =>
        (false, [noTransitionMsg symbol (stateName fsm fsm.currentState)], fsm)

/-- `processString`: resets the cursor, emits the start record, runs the
character loop, and returns the `ProcessResult` together with the FSM it
leaves behind (C mutates `*fsm` in place; the embedding returns it). -/
def processString (fsm : FSM) (input : String) : ProcessResult × FSM :=
  let fsm0 := resetFSM fsm
  let r := scanChars fsm0 input.data
  ({ accepted := r.1, trace := startMsg (stateName fsm0 fsm0.currentState) :: r.2.1 }, r.2.2)

/-- `createSampleFSM`: states q0, q1, q2 (q2 accepting), transitions
q0-a->q1, q1-b->q2, q2-c->q0, initial and current state q0. -/
def createSampleFSM : FSM :=
  let fsm := initializeFSM
  let r0 := addState fsm "q0" false
  let q0 := r0.1.toNat
  let r1 := addState r0.2 "q1" false
  let q1 := r1.1.toNat
  let r2 := addState r1.2 "q2" true
  let q2 := r2.1.toNat
  let fsm3 := addTransition r2.2 q0 q1 'a'
  let fsm4 := addTransition fsm3 q1 q2 'b'
  let fsm5 := addTransition fsm4 q2 q0 'c'
  { fsm5 with initialState := q0, currentState := q0 }

/-- A predicate packaging the C comparison
`transitions[i].fromState == currentState && transitions[i].symbol == symbol`. -/
abbrev matchesTS (currentState : Nat) (symbol : Char) (t : Transition) : Prop :=
  t.fromState = currentState ∧ t.symbol = symbol

/-- The 0-based index of the input character at which the scan loop of
`processString` halts with a failure (unknown symbol or missing transition),
`none` when every character is consumed.  It mirrors the control flow of
`scanChars` exactly, recording where the loop stops instead of the trace it
writes; it is used to state the trace-length property. -/
def rejectIndex : FSM → List Char → Option Nat
  | _, [] => none
  | fsm, symbol :: rest =>
    if charInAlphabet fsm symbol = false then some 0
    else
      match findTransition fsm fsm.currentState symbol with
      | some transIndex =>
        (rejectIndex { fsm with currentState := (transitionAt fsm transIndex).toState }
            rest).map (· + 1)
      | none => some 0

/-- Valid state indices: the initial state and every transition's target
state are in range of the state array. -/
def ValidFSM (fsm : FSM) : Prop :=
  fsm.initialState < fsm.states.length ∧
  ∀ t ∈ fsm.transitions, t.toState < fsm.states.length

instance (fsm : FSM) : Decidable (ValidFSM fsm) :=
  inferInstanceAs (Decidable (fsm.initialState < fsm.states.length ∧
    ∀ t ∈ fsm.transitions, t.toState < fsm.states.length))

/-- A bounds-checked read of `fsm->states[i]`: `none` exactly when the C
read would be out of bounds. -/
def getStateChecked (fsm : FSM) (i : Nat) : Option State :=
  fsm.states.get? i

/-- A bounds-checked read of `fsm->transitions[i]`. -/
def getTransitionChecked (fsm : FSM) (i : Nat) : Option Transition :=
  fsm.transitions.get? i

/-- A bounds-checked write of `result.trace[result.traceCount]`: `none`
exactly when the C write would overflow the `MAX_TRACE` array. -/
def pushTrace (trace : List String) (msg : String) : Option (List String) :=
  if trace.length < MAX_TRACE then some (trace ++ [msg]) else none

/-- The character loop of `processString` with every array access guarded:
each state read, transition read and trace write goes through the checked
accessors, so the whole run returns `none` iff the C loop would touch an
out-of-bounds index.  The `trace` argument is the trace accumulated so far
(the start record included), since the capacity check is against the whole
`trace` array. -/
def scanCharsChecked : FSM → List Char → List String → Option (Bool × List String × FSM)
  | fsm, [], trace => do
    let st ← getStateChecked fsm fsm.currentState
    let accepted := st.isAccepting
    let trace1 ← pushTrace trace (if accepted then acceptedMsg else rejectedMsg)
    some (accepted, trace1, fsm)
  | fsm, symbol :: rest, trace =>
    if charInAlphabet fsm symbol = false then do
      let trace1 ← pushTrace trace (unknownSymbolMsg symbol)
      some (false, trace1, fsm)
    else
      match findTransition fsm fsm.currentState symbol with
      | some transIndex => do
        let t ← getTransitionChecked fsm transIndex
        let old ← getStateChecked fsm fsm.currentState
        let fsm1 := { fsm with currentState := t.toState }
        let nw ← getStateChecked fsm1 fsm1.currentState
        let trace1 ← pushTrace trace (readMsg symbol old.name nw.name)
        scanCharsChecked fsm1 rest trace1
      | none => do
        let st ← getStateChecked fsm fsm.currentState
        let trace1 ← pushTrace trace (noTransitionMsg symbol st.name)
        some (false, trace1, fsm)

/-- `processString` with every array access guarded (the start record's
state read and trace write included). -/
def processStringChecked (fsm : FSM) (input : String) :
    Option (Bool × List String × FSM) := do
  let fsm0 := resetFSM fsm
  let st ← getStateChecked fsm0 fsm0.currentState
  let trace0 ← pushTrace [] (startMsg st.name)
  scanCharsChecked fsm0 input.data trace0

/-- Fold a sequence of `addTransition` calls `(fromState, toState, symbol)`
over an automaton, in order. -/
def runTransitions (fsm : FSM) (calls : List (Nat × Nat × Char)) : FSM :=
  calls.foldl (fun f c => addTransition f c.1 c.2.1 c.2.2) fsm

/-- The symbols of a sequence of `addTransition` calls, in call order. -/
def callSymbols (calls : List (Nat × Nat × Char)) : List Char :=
  calls.map (fun c => c.2.2)

/-- 27 `addTransition` calls carrying 27 distinct symbols — one more than
`MAX_ALPHABET`. -/
def overfullCalls : List (Nat × Nat × Char) :=
  "abcdefghijklmnopqrstuvwxyz0".data.map (fun c => (0, 0, c))

/-- A 60-character name, longer than `MAX_NAME_LEN`. -/
def longName : String :=
  "abcdefghijklmnopqrstuvwxyzabcdefghijklmnopqrstuvwxyzabcdefgh"

/-- C1 counterexample: on the sample automaton and input "abc" the claim's
exact 5-record trace (final record `"REJECTED"`) is not what the code
produces — the code's final record is `"✗ String REJECTED"`. -/
theorem sample_abc_claimed_trace_false :
    ¬ ((processString createSampleFSM "abc").1.accepted = false ∧
       (processString createSampleFSM "abc").1.trace =
         ["Starting at state: q0", "Read 'a': q0 -> q1", "Read 'b': q1 -> q2",
          "Read 'c': q2 -> q0", "REJECTED"]) := by
  decide

/-- C1 (amended): on the sample automaton, `processString "abc"` halts with
`accepted = false` (the cursor ends on the non-accepting state q0) and
produces exactly the 5-record trace ending in the code's verdict record
`"✗ String REJECTED"`. -/
theorem sample_abc_result :
    (processString createSampleFSM "abc").1.accepted = false ∧
    (processString createSampleFSM "abc").1.trace =
      ["Starting at state: q0", "Read 'a': q0 -> q1", "Read 'b': q1 -> q2",
       "Read 'c': q2 -> q0", "✗ String REJECTED"] := by
  decide

/-- The character loop never changes the structural fields of the FSM: only
the cursor moves. -/
theorem scanChars_frame (chars : List Char) :
    ∀ fsm : FSM,
      (scanChars fsm chars).2.2.states = fsm.states ∧
      (scanChars fsm chars).2.2.transitions = fsm.transitions ∧
      (scanChars fsm chars).2.2.alphabet = fsm.alphabet ∧
      (scanChars fsm chars).2.2.initialState = fsm.initialState := by
  induction chars with
  | nil => intro fsm; simp [scanChars]
  | cons c rest ih =>
    intro fsm
    by_cases h : charInAlphabet fsm c = false
    · simp [scanChars, h]
    · simp only [scanChars, if_neg h]
      cases hf : findTransition fsm fsm.currentState c with
      | some t => simpa using ih { fsm with currentState := (transitionAt fsm t).toState }
      | none => simp

/-- C5: `processString` leaves states, stateCount, transitions,
transitionCount, alphabet, alphabetSize and the initial-state index
unchanged; the cursor is the only FSM field it may move. -/
theorem processString_frame :
    ∀ (fsm : FSM) (input : String),
      (processString fsm input).2.states = fsm.states ∧
      (processString fsm input).2.states.length = fsm.states.length ∧
      (processString fsm input).2.transitions = fsm.transitions ∧
      (processString fsm input).2.transitions.length = fsm.transitions.length ∧
      (processString fsm input).2.alphabet = fsm.alphabet ∧
      (processString fsm input).2.alphabet.length = fsm.alphabet.length ∧
      (processString fsm input).2.initialState = fsm.initialState := by
  intro fsm input
  have h := scanChars_frame input.data (resetFSM fsm)
  simp only [resetFSM] at h
  simp only [processString, resetFSM]
  exact ⟨h.1, by rw [h.1], h.2.1, by rw [h.2.1], h.2.2.1, by rw [h.2.2.1], h.2.2.2⟩

/-- C4: the result of `processString` is independent of the cursor value the
automaton starts with (the call resets the cursor first), so a repeated call
— whose only possible state change is the cursor, by the frame property —
returns the identical `ProcessResult`. -/
theorem processString_deterministic :
    ∀ (fsm : FSM) (c : Nat) (input : String),
      (processString { fsm with currentState := c } input).1 =
        (processString fsm input).1 ∧
      (processString (processString fsm input).2 input).1 =
        (processString fsm input).1 := by
  intro fsm c input
  constructor
  · rfl
  · have h := scanChars_frame input.data (resetFSM fsm)
    simp only [resetFSM] at h
    have hr : resetFSM (processString fsm input).2 = resetFSM fsm := by
      simp only [processString, resetFSM]
      obtain ⟨h1, h2, h3, h4⟩ := h
      rw [h1, h2, h3, h4]
    simp only [processString] at hr ⊢
    rw [hr]

/-- C6: at capacity (`stateCount ≥ MAX_STATES`) `addState` returns `-1` and
the automaton is completely unchanged; below capacity it appends one state
(with the requested accepting flag, all other fields untouched) and returns
the new state's index, the old `stateCount`. -/
theorem addState_capacity :
    ∀ (fsm : FSM) (name : String) (isAccepting : Bool),
      (fsm.states.length ≥ MAX_STATES →
         addState fsm name isAccepting = (-1, fsm)) ∧
      (fsm.states.length < MAX_STATES →
         (addState fsm name isAccepting).1 = (fsm.states.length : Int) ∧
         (addState fsm name isAccepting).2.states.length = fsm.states.length + 1 ∧
         (∃ st : State, st.isAccepting = isAccepting ∧
            (addState fsm name isAccepting).2.states = fsm.states ++ [st]) ∧
         (addState fsm name isAccepting).2.transitions = fsm.transitions ∧
         (addState fsm name isAccepting).2.alphabet = fsm.alphabet ∧
         (addState fsm name isAccepting).2.initialState = fsm.initialState ∧
         (addState fsm name isAccepting).2.currentState = fsm.currentState) := by
  intro fsm name isAccepting
  constructor
  · intro h
    simp [addState, h]
  · intro h
    have hn : ¬ fsm.states.length ≥ MAX_STATES := by omega
    refine ⟨by simp [addState, hn], by simp [addState, hn],
      ⟨{ name := String.mk (name.data.take (MAX_NAME_LEN - 1)),
         isAccepting := isAccepting }, rfl, by simp [addState, hn]⟩,
      by simp [addState, hn], by simp [addState, hn], by simp [addState, hn],
      by simp [addState, hn]⟩

/-- `addToAlphabet` never touches the transitions. -/
theorem addToAlphabet_transitions (fsm : FSM) (c : Char) :
    (addToAlphabet fsm c).transitions = fsm.transitions := by
  unfold addToAlphabet
  split <;> rfl

/-- `addToAlphabet` registers its symbol whenever it is already present or
there is room for it. -/
theorem addToAlphabet_contains (fsm : FSM) (c : Char)
    (h : charInAlphabet fsm c = true ∨ fsm.alphabet.length < MAX_ALPHABET) :
    charInAlphabet (addToAlphabet fsm c) c = true := by
  by_cases hc : charInAlphabet fsm c = true
  · have : ¬ (charInAlphabet fsm c = false ∧ fsm.alphabet.length < MAX_ALPHABET) := by
      simp [hc]
    simpa [addToAlphabet, this] using hc
  · have hf : charInAlphabet fsm c = false := by
      cases hcc : charInAlphabet fsm c
      · rfl
      · exact absurd hcc hc
    have hlen : fsm.alphabet.length < MAX_ALPHABET := by
      rcases h with h1 | h2
      · exact absurd h1 hc
      · exact h2
    have hmem : c ∉ fsm.alphabet := by simpa [charInAlphabet] using hf
    simp [addToAlphabet, charInAlphabet, hf, hlen, hmem]

/-- C7: at capacity (`transitionCount ≥ MAX_TRANSITIONS`) `addTransition`
returns with the automaton unchanged — in particular the symbol is not
registered into the alphabet; below capacity it appends exactly the given
transition and (the side effect of a successful append) registers the
symbol, provided the symbol is already present or the alphabet has room. -/
theorem addTransition_capacity :
    ∀ (fsm : FSM) (fromState toState : Nat) (symbol : Char),
      (fsm.transitions.length ≥ MAX_TRANSITIONS →
         addTransition fsm fromState toState symbol = fsm) ∧
      (fsm.transitions.length < MAX_TRANSITIONS →
         (addTransition fsm fromState toState symbol).transitions =
           fsm.transitions ++
             [{ fromState := fromState, toState := toState, symbol := symbol }] ∧
         ((charInAlphabet fsm symbol = true ∨ fsm.alphabet.length < MAX_ALPHABET) →
            charInAlphabet (addTransition fsm fromState toState symbol) symbol = true)) := by
  intro fsm fromState toState symbol
  constructor
  · intro h
    simp [addTransition, h]
  · intro h
    have hn : ¬ fsm.transitions.length ≥ MAX_TRANSITIONS := by omega
    have ht : addTransition fsm fromState toState symbol =
        addToAlphabet
          { fsm with
              transitions := fsm.transitions ++
                [{ fromState := fromState, toState := toState, symbol := symbol }] }
          symbol := by
      simp [addTransition, hn]
    constructor
    · rw [ht, addToAlphabet_transitions]
    · intro hroom
      rw [ht]
      exact addToAlphabet_contains _ _ hroom

/-- C10: `addState` never fails because of the name's length — for any name
(given only free capacity) it succeeds, and the stored name is the first
`min (length name) (MAX_NAME_LEN - 1)` characters of the given name, a
prefix of it (the embedding of `strncpy(…, MAX_NAME_LEN - 1)` followed by a
forced NUL terminator). -/
theorem addState_truncates_name :
    ∀ (fsm : FSM) (name : String) (isAccepting : Bool),
      fsm.states.length < MAX_STATES →
      ∃ st : State,
        (addState fsm name isAccepting).1 = (fsm.states.length : Int) ∧
        (addState fsm name isAccepting).2.states = fsm.states ++ [st] ∧
        st.isAccepting = isAccepting ∧
        st.name.data = name.data.take (MAX_NAME_LEN - 1) ∧
        st.name.length = min name.length (MAX_NAME_LEN - 1) ∧
        st.name.data <+: name.data := by
  intro fsm name isAccepting h
  have hn : ¬ fsm.states.length ≥ MAX_STATES := by omega
  refine ⟨{ name := String.mk (name.data.take (MAX_NAME_LEN - 1)),
            isAccepting := isAccepting }, ?_, ?_, rfl, rfl, ?_, ?_⟩
  · simp [addState, hn]
  · simp [addState, hn]
  · show (name.data.take (MAX_NAME_LEN - 1)).length = _
    rw [List.length_take]
    show min (MAX_NAME_LEN - 1) name.data.length = min name.data.length (MAX_NAME_LEN - 1)
    omega
  · exact List.take_prefix _ _

/-- Running the scan loop with counter `i` yields the result of the scan
started at counter `0` shifted by `i`. -/
theorem findTransitionAux_shift (cur : Nat) (sym : Char) :
    ∀ (ts : List Transition) (i : Nat),
      findTransitionAux ts i cur sym =
        (findTransitionAux ts 0 cur sym).map (· + i) := by
  intro ts
  induction ts with
  | nil => intro i; simp [findTransitionAux]
  | cons t rest ih =>
    intro i
    by_cases h : t.fromState = cur ∧ t.symbol = sym
    · simp [findTransitionAux, h]
    · simp only [findTransitionAux, if_neg h]
      rw [ih (i + 1), ih 1]
      cases findTransitionAux rest 0 cur sym with
      | none => simp
      | some k => simp; omega

/-- The scan loop from counter `0` returns `some i` exactly when position
`i` matches and every earlier position does not. -/
theorem findTransitionAux_some_iff (cur : Nat) (sym : Char) :
    ∀ (ts : List Transition) (i : Nat),
      findTransitionAux ts 0 cur sym = some i ↔
        (i < ts.length ∧ matchesTS cur sym (ts.getD i defaultTransition) ∧
         ∀ j, j < i → ¬ matchesTS cur sym (ts.getD j defaultTransition)) := by
  intro ts
  induction ts with
  | nil => intro i; simp [findTransitionAux]
  | cons t rest ih =>
    intro i
    by_cases h : t.fromState = cur ∧ t.symbol = sym
    · constructor
      · intro he
        simp only [findTransitionAux, if_pos h, Option.some.injEq] at he
        subst he
        exact ⟨Nat.succ_pos _, by simpa using h, fun j hj => absurd hj (Nat.not_lt_zero j)⟩
      · rintro ⟨hlen, hm, hmin⟩
        match i with
        | 0 => simp [findTransitionAux, if_pos h]
        | i + 1 => exact absurd (by simpa using h) (by simpa using hmin 0 (Nat.succ_pos _))
    · have step : findTransitionAux (t :: rest) 0 cur sym =
          (findTransitionAux rest 0 cur sym).map (· + 1) := by
        simp only [findTransitionAux, if_neg h]
        exact findTransitionAux_shift cur sym rest 1
      rw [step]
      constructor
      · intro he
        cases hk : findTransitionAux rest 0 cur sym with
        | none => rw [hk] at he; simp at he
        | some k =>
          rw [hk] at he
          simp only [Option.map_some', Option.some.injEq] at he
          obtain ⟨hlen, hm, hmin⟩ := (ih k).mp hk
          subst he
          refine ⟨Nat.succ_lt_succ hlen, by simpa using hm, ?_⟩
          intro j hj
          match j with
          | 0 => simpa using h
          | j + 1 => simpa using hmin j (Nat.lt_of_succ_lt_succ hj)
      · rintro ⟨hlen, hm, hmin⟩
        match i with
        | 0 => exact absurd (by simpa using hm) h
        | i + 1 =>
          have hr : findTransitionAux rest 0 cur sym = some i :=
            (ih i).mpr ⟨Nat.lt_of_succ_lt_succ hlen, by simpa using hm,
              fun j hj => by simpa using hmin (j + 1) (Nat.succ_lt_succ hj)⟩
          rw [hr]
          simp

/-- The scan loop from counter `0` returns `none` exactly when no position
matches. -/
theorem findTransitionAux_none_iff (cur : Nat) (sym : Char) :
    ∀ ts : List Transition,
      findTransitionAux ts 0 cur sym = none ↔ ∀ t ∈ ts, ¬ matchesTS cur sym t := by
  intro ts
  induction ts with
  | nil => simp [findTransitionAux]
  | cons t rest ih =>
    by_cases h : t.fromState = cur ∧ t.symbol = sym
    · simp only [findTransitionAux, if_pos h]
      constructor
      · intro he; exact absurd he (by simp)
      · intro hall; exact absurd h (hall t (List.mem_cons_self t rest))
    · have step : findTransitionAux (t :: rest) 0 cur sym =
          (findTransitionAux rest 0 cur sym).map (· + 1) := by
        simp only [findTransitionAux, if_neg h]
        exact findTransitionAux_shift cur sym rest 1
      rw [step]
      constructor
      · intro he t' ht'
        rcases List.mem_cons.mp ht' with rfl | hmem
        · exact h
        · have : findTransitionAux rest 0 cur sym = none := by
            cases hk : findTransitionAux rest 0 cur sym
            · rfl
            · rw [hk] at he; simp at he
          exact (ih.mp this) t' hmem
      · intro hall
        have : findTransitionAux rest 0 cur sym = none :=
          ih.mpr fun t' ht' => hall t' (List.mem_cons_of_mem t ht')
        rw [this]
        rfl

/-- C8: `findTransition` returns the smallest registration-order index whose
transition matches `(fromState, symbol)` — so with duplicate `(fromState,
symbol)` entries the first-registered one wins — and `none` (the C code's
`-1`) exactly when no transition matches. -/
theorem findTransition_first_match (fsm : FSM) (currentState : Nat) (symbol : Char) :
    (∀ i, findTransition fsm currentState symbol = some i ↔
       (i < fsm.transitions.length ∧
        matchesTS currentState symbol (transitionAt fsm i) ∧
        ∀ j, j < i → ¬ matchesTS currentState symbol (transitionAt fsm j))) ∧
    (findTransition fsm currentState symbol = none ↔
       ∀ t ∈ fsm.transitions, ¬ matchesTS currentState symbol t) :=
  ⟨fun i => findTransitionAux_some_iff currentState symbol fsm.transitions i,
   findTransitionAux_none_iff currentState symbol fsm.transitions⟩

/-- Witness for `addState_truncates_name` at a concrete over-long name. -/
theorem addState_truncates_name_witness :
    ∃ st : State,
      (addState initializeFSM longName true).1 = ((0 : Nat) : Int) ∧
      (addState initializeFSM longName true).2.states = [] ++ [st] ∧
      st.isAccepting = true ∧
      st.name.data = longName.data.take (MAX_NAME_LEN - 1) ∧
      st.name.length = min longName.length (MAX_NAME_LEN - 1) ∧
      st.name.data <+: longName.data :=
  addState_truncates_name initializeFSM longName true (by decide)

/-- The character loop emits exactly one record per consumed character plus
one final record: the verdict on completion, the failure record on the
character where `rejectIndex` says the scan halts. -/
theorem scanChars_trace_length :
    ∀ (chars : List Char) (fsm : FSM),
      (scanChars fsm chars).2.1.length =
        (match rejectIndex fsm chars with
         | none => chars.length + 1
         | some i => i + 1) := by
  intro chars
  induction chars with
  | nil => intro fsm; simp [scanChars, rejectIndex]
  | cons c rest ih =>
    intro fsm
    by_cases h : charInAlphabet fsm c = false
    · simp [scanChars, rejectIndex, h]
    · simp only [scanChars, rejectIndex, if_neg h]
      cases hf : findTransition fsm fsm.currentState c with
      | some t =>
        simp only [hf, List.length_cons]
        rw [ih]
        cases hr : rejectIndex
            { fsm with currentState := (transitionAt fsm t).toState } rest with
        | none => simp
        | some i => simp
      | none => simp [hf]

/-- A halting index reported by `rejectIndex` is an index of an input
character. -/
theorem rejectIndex_lt :
    ∀ (chars : List Char) (fsm : FSM) (i : Nat),
      rejectIndex fsm chars = some i → i < chars.length := by
  intro chars
  induction chars with
  | nil => intro fsm i h; simp [rejectIndex] at h
  | cons c rest ih =>
    intro fsm i h
    by_cases hc : charInAlphabet fsm c = false
    · simp [rejectIndex, hc] at h
      simp only [List.length_cons]
      omega
    · simp only [rejectIndex, if_neg hc] at h
      cases hf : findTransition fsm fsm.currentState c with
      | some t =>
        rw [hf] at h
        simp only [Option.map_eq_some'] at h
        obtain ⟨k, hk, rfl⟩ := h
        have := ih _ _ hk
        simp only [List.length_cons]
        omega
      | none =>
        rw [hf] at h
        simp at h
        simp only [List.length_cons]
        omega

/-- C2: if `processString` scans all `n` characters without failure
(`rejectIndex` is `none`), the trace has exactly `n + 2` records (start,
one per symbol, verdict); if the scan halts at 0-based character index `i`
(unknown symbol or missing transition), then `i` is an input position and
the trace has exactly `i + 2` records (start, `i` successful reads, one
failure record) — so no record exists for any character beyond index `i`. -/
theorem processString_trace_length (fsm : FSM) (input : String)
    (_hv : ValidFSM fsm) (_hn : input.length ≤ MAX_TRACE - 2) :
    (rejectIndex (resetFSM fsm) input.data = none →
       (processString fsm input).1.trace.length = input.length + 2) ∧
    (∀ i : Nat, rejectIndex (resetFSM fsm) input.data = some i →
       i < input.length ∧ (processString fsm input).1.trace.length = i + 2) := by
  have hlen := scanChars_trace_length input.data (resetFSM fsm)
  constructor
  · intro h
    rw [h] at hlen
    show ((scanChars (resetFSM fsm) input.data).2.1.length + 1 = _)
    rw [hlen]
    show input.data.length + 1 + 1 = input.data.length + 2
    omega
  · intro i h
    refine ⟨rejectIndex_lt input.data (resetFSM fsm) i h, ?_⟩
    rw [h] at hlen
    show ((scanChars (resetFSM fsm) input.data).2.1.length + 1 = _)
    rw [hlen]

/-- Witness for `processString_trace_length`: the sample automaton consumes
all of "abc", so its trace has `3 + 2 = 5` records. -/
theorem processString_trace_length_witness :
    (processString createSampleFSM "abc").1.trace.length = "abc".length + 2 :=
  (processString_trace_length createSampleFSM "abc" (by decide) (by decide)).1 (by decide)

/-- `charInAlphabet` is membership of the alphabet list. -/
theorem charInAlphabet_iff_mem (fsm : FSM) (c : Char) :
    charInAlphabet fsm c = true ↔ c ∈ fsm.alphabet := by
  simp [charInAlphabet]

/-- A single `addTransition` call preserves every symbol already in the
alphabet (the alphabet only grows). -/
theorem addTransition_alphabet_mono (fsm : FSM) (fromState toState : Nat)
    (sym c : Char) (h : charInAlphabet fsm c = true) :
    charInAlphabet (addTransition fsm fromState toState sym) c = true := by
  unfold addTransition
  split
  · exact h
  · unfold addToAlphabet
    split
    · rw [charInAlphabet_iff_mem] at h ⊢
      show c ∈ fsm.alphabet ++ [sym]
      exact List.mem_append_left _ h
    · exact h

/-- A single `addTransition` call adds no symbol but its own. -/
theorem addTransition_alphabet_sub (fsm : FSM) (fromState toState : Nat)
    (sym c : Char)
    (h : charInAlphabet (addTransition fsm fromState toState sym) c = true) :
    charInAlphabet fsm c = true ∨ c = sym := by
  unfold addTransition at h
  split at h
  · exact Or.inl h
  · unfold addToAlphabet at h
    split at h
    · rw [charInAlphabet_iff_mem] at h
      replace h : c ∈ fsm.alphabet ++ [sym] := h
      rcases List.mem_append.mp h with hm | hm
      · exact Or.inl ((charInAlphabet_iff_mem fsm c).mpr hm)
      · exact Or.inr (List.mem_singleton.mp hm)
    · exact Or.inl h

/-- Over any run of `addTransition` calls, every symbol of the final
alphabet came from the starting alphabet or from one of the calls. -/
theorem runTransitions_alphabet_sub :
    ∀ (calls : List (Nat × Nat × Char)) (fsm : FSM) (c : Char),
      charInAlphabet (runTransitions fsm calls) c = true →
      charInAlphabet fsm c = true ∨ c ∈ callSymbols calls := by
  intro calls
  induction calls with
  | nil => intro fsm c h; exact Or.inl h
  | cons call rest ih =>
    intro fsm c h
    have hstep : runTransitions fsm (call :: rest) =
        runTransitions (addTransition fsm call.1 call.2.1 call.2.2) rest := rfl
    rw [hstep] at h
    rcases ih _ c h with h1 | h1
    · rcases addTransition_alphabet_sub fsm call.1 call.2.1 call.2.2 c h1 with h2 | h2
      · exact Or.inl h2
      · exact Or.inr (by simp [callSymbols, h2])
    · exact Or.inr (by simp [callSymbols]; right; simpa [callSymbols] using h1)

/-- Within the capacity bounds, the alphabet after a run of `addTransition`
calls holds exactly the starting symbols and the symbols of the calls, and
stays duplicate-free. -/
theorem runTransitions_alphabet_iff :
    ∀ (calls : List (Nat × Nat × Char)) (fsm : FSM),
      fsm.alphabet.Nodup →
      fsm.transitions.length + calls.length ≤ MAX_TRANSITIONS →
      (fsm.alphabet.toFinset ∪ (callSymbols calls).toFinset).card ≤ MAX_ALPHABET →
      ∀ c : Char,
        (charInAlphabet (runTransitions fsm calls) c = true ↔
          (charInAlphabet fsm c = true ∨ c ∈ callSymbols calls)) := by
  intro calls
  induction calls with
  | nil => intro fsm _ _ _ c; simp [runTransitions, callSymbols]
  | cons call rest ih =>
    intro fsm hnd hcap hcard c
    obtain ⟨f, t, sym⟩ := call
    have hsyms : callSymbols ((f, t, sym) :: rest) = sym :: callSymbols rest := rfl
    have hlt : fsm.transitions.length < MAX_TRANSITIONS := by
      simp only [List.length_cons] at hcap
      omega
    have hn : ¬ fsm.transitions.length ≥ MAX_TRANSITIONS := by omega
    have hstep : runTransitions fsm ((f, t, sym) :: rest) =
        runTransitions (addTransition fsm f t sym) rest := rfl
    have htrans : (addTransition fsm f t sym).transitions.length =
        fsm.transitions.length + 1 := by
      rw [(addTransition_capacity fsm f t sym).2 hlt |>.1]
      simp
    by_cases hmem : sym ∈ fsm.alphabet
    · have halph : (addTransition fsm f t sym).alphabet = fsm.alphabet := by
        have hcc2 : charInAlphabet
            { fsm with transitions := fsm.transitions ++
                [{ fromState := f, toState := t, symbol := sym }] } sym = true := by
          rw [charInAlphabet_iff_mem]
          exact hmem
        simp [addTransition, if_neg hn, addToAlphabet, hcc2]
      have hcard1 : ((addTransition fsm f t sym).alphabet.toFinset ∪
          (callSymbols rest).toFinset).card ≤ MAX_ALPHABET := by
        refine le_trans (Finset.card_le_card ?_) hcard
        rw [halph, hsyms]
        intro x hx
        simp only [Finset.mem_union, List.mem_toFinset, List.toFinset_cons,
          Finset.mem_insert] at hx ⊢
        tauto
      have hcap1 : (addTransition fsm f t sym).transitions.length + rest.length ≤
          MAX_TRANSITIONS := by
        rw [htrans]
        simp only [List.length_cons] at hcap
        omega
      have hnd1 : (addTransition fsm f t sym).alphabet.Nodup := by
        rw [halph]; exact hnd
      rw [hstep, ih _ hnd1 hcap1 hcard1 c]
      have hsame : charInAlphabet (addTransition fsm f t sym) c =
          charInAlphabet fsm c := by
        simp [charInAlphabet, halph]
      rw [hsame, hsyms]
      constructor
      · rintro (h1 | h1)
        · exact Or.inl h1
        · exact Or.inr (List.mem_cons_of_mem sym h1)
      · rintro (h1 | h1)
        · exact Or.inl h1
        · rcases List.mem_cons.mp h1 with rfl | h2
          · exact Or.inl ((charInAlphabet_iff_mem fsm c).mpr hmem)
          · exact Or.inr h2
    · have hroom : fsm.alphabet.length < MAX_ALPHABET := by
        have hnodup := hnd
        have hlencard : fsm.alphabet.toFinset.card = fsm.alphabet.length :=
          List.toFinset_card_of_nodup hnd
        have hsub : insert sym fsm.alphabet.toFinset ⊆
            fsm.alphabet.toFinset ∪ (callSymbols ((f, t, sym) :: rest)).toFinset := by
          intro x hx
          rcases Finset.mem_insert.mp hx with rfl | hx2
          · apply Finset.mem_union_right
            rw [hsyms]
            simp
          · exact Finset.mem_union_left _ hx2
        have hcardins : (insert sym fsm.alphabet.toFinset).card =
            fsm.alphabet.toFinset.card + 1 := by
          rw [Finset.card_insert_of_not_mem (by simpa using hmem)]
        have := Finset.card_le_card hsub
        omega
      have hcc : charInAlphabet fsm sym = false ∧
          fsm.alphabet.length < MAX_ALPHABET := by
        constructor
        · simp [charInAlphabet, hmem]
        · exact hroom
      have halph : (addTransition fsm f t sym).alphabet = fsm.alphabet ++ [sym] := by
        have hcc2 : charInAlphabet
            { fsm with transitions := fsm.transitions ++
                [{ fromState := f, toState := t, symbol := sym }] } sym = false :=
          hcc.1
        simp [addTransition, if_neg hn, addToAlphabet, hcc2, hcc.2]
      have hnd1 : (addTransition fsm f t sym).alphabet.Nodup := by
        rw [halph]
        simp [List.nodup_append, hnd, hmem]
      have hcard1 : ((addTransition fsm f t sym).alphabet.toFinset ∪
          (callSymbols rest).toFinset).card ≤ MAX_ALPHABET := by
        refine le_trans (Finset.card_le_card ?_) hcard
        rw [halph, hsyms]
        intro x hx
        simp only [Finset.mem_union, List.mem_toFinset, List.mem_append,
          List.mem_singleton, List.toFinset_cons, Finset.mem_insert] at hx ⊢
        tauto
      have hcap1 : (addTransition fsm f t sym).transitions.length + rest.length ≤
          MAX_TRANSITIONS := by
        rw [htrans]
        simp only [List.length_cons] at hcap
        omega
      rw [hstep, ih _ hnd1 hcap1 hcard1 c]
      have hnew : charInAlphabet (addTransition fsm f t sym) c = true ↔
          (charInAlphabet fsm c = true ∨ c = sym) := by
        rw [charInAlphabet_iff_mem, halph, charInAlphabet_iff_mem]
        simp
      rw [hnew, hsyms]
      constructor
      · rintro ((h1 | h1) | h1)
        · exact Or.inl h1
        · exact Or.inr (by simp [h1])
        · exact Or.inr (List.mem_cons_of_mem sym h1)
      · rintro (h1 | h1)
        · exact Or.inl (Or.inl h1)
        · rcases List.mem_cons.mp h1 with rfl | h2
          · exact Or.inl (Or.inr rfl)
          · exact Or.inr h2

/-- C3 counterexample: 27 `addTransition` calls with 27 distinct symbols.
The 27th symbol `'0'` was passed to `addTransition`, yet
`alphabetContains('0')` is false afterwards — the alphabet is capped at
`MAX_ALPHABET = 26`, so the claim as stated fails. -/
theorem alphabet_overflow_counterexample :
    '0' ∈ callSymbols overfullCalls ∧
    charInAlphabet (runTransitions initializeFSM overfullCalls) '0' = false := by
  decide

/-- C3 (amended): the alphabet only grows under `addTransition` (every
symbol already present is preserved); and for a run of `addTransition`
calls from a fresh automaton that stays within capacity — at most
`MAX_TRANSITIONS` calls carrying at most `MAX_ALPHABET` distinct symbols —
`alphabetContains s` afterwards is true exactly for the symbols passed to
some call; without the capacity bounds the "only if" direction still holds
(no symbol never passed is ever contained). -/
theorem alphabet_growth :
    (∀ (fsm : FSM) (fromState toState : Nat) (sym c : Char),
       charInAlphabet fsm c = true →
       charInAlphabet (addTransition fsm fromState toState sym) c = true) ∧
    (∀ (calls : List (Nat × Nat × Char)) (c : Char),
       charInAlphabet (runTransitions initializeFSM calls) c = true →
       c ∈ callSymbols calls) ∧
    (∀ calls : List (Nat × Nat × Char),
       calls.length ≤ MAX_TRANSITIONS →
       (callSymbols calls).toFinset.card ≤ MAX_ALPHABET →
       ∀ c : Char,
         (charInAlphabet (runTransitions initializeFSM calls) c = true ↔
           c ∈ callSymbols calls)) := by
  refine ⟨addTransition_alphabet_mono, ?_, ?_⟩
  · intro calls c h
    rcases runTransitions_alphabet_sub calls initializeFSM c h with h1 | h1
    · simp [charInAlphabet, initializeFSM] at h1
    · exact h1
  · intro calls hlen hcard c
    have h := runTransitions_alphabet_iff calls initializeFSM
      (by simp [initializeFSM])
      (by simpa [initializeFSM] using hlen)
      (by simpa [initializeFSM] using hcard) c
    rw [h]
    simp [charInAlphabet, initializeFSM]

/-- An in-bounds checked read returns the element the unchecked `getD` read
returns. -/
theorem list_getElem?_eq_some_getD {α : Type} (l : List α) (d : α) {n : Nat}
    (h : n < l.length) : l[n]? = some (l.getD n d) := by
  rw [List.getD_eq_getElem l d h]
  exact (List.getElem?_eq_some_getElem_iff l n h).mpr trivial

/-- With valid indices, a valid cursor and room in the trace, the checked
character loop performs no out-of-bounds access and computes exactly what
the unchecked loop computes (the accumulated trace grows by its records). -/
theorem scanCharsChecked_eq :
    ∀ (chars : List Char) (fsm : FSM) (trace : List String),
      (∀ t ∈ fsm.transitions, t.toState < fsm.states.length) →
      fsm.currentState < fsm.states.length →
      trace.length + chars.length + 1 ≤ MAX_TRACE →
      scanCharsChecked fsm chars trace =
        some ((scanChars fsm chars).1,
              trace ++ (scanChars fsm chars).2.1,
              (scanChars fsm chars).2.2) := by
  intro chars
  induction chars with
  | nil =>
    intro fsm trace hval hcur hcap
    have hst : fsm.states[fsm.currentState]? =
        some (fsm.states.getD fsm.currentState defaultState) :=
      list_getElem?_eq_some_getD _ _ hcur
    have hlt : trace.length < MAX_TRACE := by
      simp only [List.length_nil] at hcap
      omega
    simp only [scanCharsChecked, getStateChecked, List.get?_eq_getElem?, hst,
      Option.bind_eq_bind, Option.some_bind, pushTrace, if_pos hlt, scanChars,
      stateAccepting]
  | cons symbol rest ih =>
    intro fsm trace hval hcur hcap
    have hlt : trace.length < MAX_TRACE := by
      simp only [List.length_cons] at hcap
      omega
    have hst : fsm.states[fsm.currentState]? =
        some (fsm.states.getD fsm.currentState defaultState) :=
      list_getElem?_eq_some_getD _ _ hcur
    by_cases hA : charInAlphabet fsm symbol = false
    · simp only [scanCharsChecked, scanChars, if_pos hA, pushTrace, if_pos hlt,
        Option.bind_eq_bind, Option.some_bind]
    · cases hf : findTransition fsm fsm.currentState symbol with
      | some ti =>
        obtain ⟨hti, -, -⟩ := (findTransitionAux_some_iff fsm.currentState symbol
          fsm.transitions ti).mp hf
        have htr : fsm.transitions[ti]? = some (transitionAt fsm ti) :=
          list_getElem?_eq_some_getD _ _ hti
        have hmemt : transitionAt fsm ti ∈ fsm.transitions := by
          show fsm.transitions.getD ti defaultTransition ∈ fsm.transitions
          rw [List.getD_eq_getElem _ _ hti]
          exact List.getElem_mem hti
        have hto : (transitionAt fsm ti).toState < fsm.states.length :=
          hval _ hmemt
        have hst2 : fsm.states[(transitionAt fsm ti).toState]? =
            some (fsm.states.getD (transitionAt fsm ti).toState defaultState) :=
          list_getElem?_eq_some_getD _ _ hto
        have hih := ih { fsm with currentState := (transitionAt fsm ti).toState }
          (trace ++ [readMsg symbol
            (fsm.states.getD fsm.currentState defaultState).name
            (fsm.states.getD (transitionAt fsm ti).toState defaultState).name])
          hval hto
          (by
            simp only [List.length_append, List.length_cons, List.length_nil] at hcap ⊢
            omega)
        simp only [scanCharsChecked, scanChars, hf, if_neg hA, getTransitionChecked,
          getStateChecked, List.get?_eq_getElem?, htr, hst, hst2, pushTrace,
          if_pos hlt, Option.bind_eq_bind, Option.some_bind]
        rw [hih]
        simp [stateName, List.append_assoc]
      | none =>
        simp only [scanCharsChecked, scanChars, hf, if_neg hA, getStateChecked,
          List.get?_eq_getElem?, hst, pushTrace, if_pos hlt, Option.bind_eq_bind,
          Option.some_bind]
        rfl

/-- C9: with valid indices (initial state and all transition targets in
range) and an input short enough for the trace capacity
(`MAX_TRACE - 2 = 98`), the fully bounds-checked engine performs no
out-of-bounds access: it returns `some` result, and that result is exactly
the unchecked `processString` outcome (same flag, same trace, same final
automaton). -/
theorem processStringChecked_safe (fsm : FSM) (input : String)
    (hv : ValidFSM fsm) (hn : input.length ≤ MAX_TRACE - 2) :
    processStringChecked fsm input =
      some ((processString fsm input).1.accepted,
            (processString fsm input).1.trace,
            (processString fsm input).2) := by
  obtain ⟨hinit, hval⟩ := hv
  have hcur : (resetFSM fsm).currentState < (resetFSM fsm).states.length := hinit
  have hst : (resetFSM fsm).states[(resetFSM fsm).currentState]? =
      some ((resetFSM fsm).states.getD (resetFSM fsm).currentState defaultState) :=
    list_getElem?_eq_some_getD _ _ hcur
  have hcap : ([startMsg ((resetFSM fsm).states.getD (resetFSM fsm).currentState
        defaultState).name] : List String).length + input.data.length + 1 ≤
      MAX_TRACE := by
    have hdata : input.data.length = input.length := rfl
    simp only [List.length_cons, List.length_nil, hdata]
    have hM2 : MAX_TRACE - 2 = 98 := rfl
    show 0 + 1 + input.length + 1 ≤ MAX_TRACE
    have hM : MAX_TRACE = 100 := rfl
    omega
  have h := scanCharsChecked_eq input.data (resetFSM fsm)
    [startMsg ((resetFSM fsm).states.getD (resetFSM fsm).currentState
      defaultState).name]
    hval hcur hcap
  simp only [processStringChecked, getStateChecked, List.get?_eq_getElem?, hst,
    Option.bind_eq_bind, Option.some_bind, pushTrace, List.length_nil,
    if_pos (by decide : (0 : Nat) < MAX_TRACE), List.nil_append]
  rw [h]
  simp [processString, stateName]

/-- Witness for `processStringChecked_safe`: the checked engine runs the
sample automaton on "abc" without any out-of-bounds access. -/
theorem processStringChecked_safe_witness :
    processStringChecked createSampleFSM "abc" =
      some ((processString createSampleFSM "abc").1.accepted,
            (processString createSampleFSM "abc").1.trace,
            (processString createSampleFSM "abc").2) :=
  processStringChecked_safe createSampleFSM "abc" (by decide) (by decide)

end AutomataSim
